import Mathlib

/-!
Verification of the xv6 teaching shell (`Proyecto1.c`).

The development shallowly embeds the shell's components: the fixed-capacity
command history (`add_history`, `show_history`), the line reader
(`readline`), the tokenizer (`parse`), the calculator builtin, the pipe
splitting logic, the file-descriptor protocol of `run_pipe`, and the
dispatch step of the main read-eval loop.  Command lines are modelled as
`List Char` (the C `char` buffers up to their terminating NUL); machine
integers that never overflow in scope are modelled as `Nat`/`Int`.
-/

set_option maxRecDepth 4000

/-- Capacity of the circular history buffer (`HISTORY_SIZE` = 10). -/
def HISTORY_SIZE : Nat := 10

/-- Maximum line buffer size (`MAXLINE` = 100). -/
def MAXLINE : Nat := 100

/-- State of the history component: the ten `history` slots (globals,
zero-initialized, so every slot starts as the empty string) and the
monotone counter `history_count`. -/
structure HistState where
  slots : Fin 10 → List Char
  count : Nat

/-- Initial state of the C globals: all slots empty, counter `0`. -/
def initHist : HistState := ⟨fun _ => [], 0⟩

/-- Embedding of `add_history` (Proyecto1.c:38-45): a no-op on the empty
string (`cmd[0] == '\0'`); otherwise `strcpy` the line into slot
`history_count % HISTORY_SIZE` and increment `history_count`. -/
def add_history (cmd : List Char) (s : HistState) : HistState :=
  if cmd = [] then s
  else ⟨Function.update s.slots ⟨s.count % 10, by omega⟩ cmd, s.count + 1⟩

/-- Record a whole list of lines in order, oldest first. -/
def recordList (ls : List (List Char)) (s : HistState) : HistState :=
  ls.foldl (fun t c => add_history c t) s

/-- Embedding of `show_history` (Proyecto1.c:49-62) as the list of
`(number, line)` pairs it prints: `start = history_count - HISTORY_SIZE`
clamped at zero (here: truncated `Nat` subtraction), then for each
`i ∈ [start, history_count)` it prints `i + 1` and `history[i % 10]`. -/
def show_history (s : HistState) : List (Nat × List Char) :=
  (List.range' (s.count - 10) (s.count - (s.count - 10))).map
    (fun i => (i + 1, s.slots ⟨i % 10, by omega⟩))

/-- The tokenizer's separator test, the C comparison `*buf == ' '`
(space is the only separator in `parse`). -/
def isSpaceChar (c : Char) : Bool := c == ' '

/-- Embedding of the loop of `parse` (Proyecto1.c:94-112): skip a run of
spaces, then cut the next maximal run of non-space characters as one
argument (in C the run is NUL-terminated in place and its start pointer
stored in `argv`), and continue after it.  The `Nat` argument is fuel for
the outer `while`; `parse` below supplies enough for the loop to run to
the terminator, and `parseGo_fuel` shows any sufficient fuel is
equivalent. -/
def parseGo : Nat → List Char → List (List Char)
  | 0, _ => []
  | f + 1, buf =>
    match buf.dropWhile isSpaceChar with
    | [] => []
    | c :: cs =>
      (c :: cs).takeWhile (fun x => !isSpaceChar x)
        :: parseGo f ((c :: cs).dropWhile (fun x => !isSpaceChar x))

/-- Embedding of `parse` (Proyecto1.c:94-112): the argument vector built
from a command line. -/
def parse (buf : List Char) : List (List Char) := parseGo (buf.length + 1) buf

/-- Spec-side definition, from the claim's words: the maximal runs of
non-space characters of the line, in left-to-right order — i.e. the chunks
obtained by splitting at every space, with the empty chunks produced by
leading/trailing/repeated separators removed. -/
def specTokens (l : List Char) : List (List Char) :=
  (l.splitOn ' ').filter (fun t => !t.isEmpty)

/-- Embedding of `starts_with` (Proyecto1.c:163-171): walk the candidate
string and the literal together; any mismatch (including the string ending
at NUL while the literal continues) returns false. -/
def starts_with : List Char → List Char → Bool
  | _, [] => true
  | [], _ :: _ => false
  | c :: cs, d :: ds => if c = d then starts_with cs ds else false

/-- Model of the xv6 C library `atoi` the shell links against (user/ulib.c,
a collaborator outside this repository): accumulate leading decimal
digits; any other leading character stops the scan, so wholly non-numeric
text parses as 0, as the spec states. -/
def atoiGo : Int → List Char → Int
  | n, [] => n
  | n, c :: cs =>
    if '0' ≤ c ∧ c ≤ '9' then atoiGo (n * 10 + ((c.toNat : Int) - ('0'.toNat : Int))) cs
    else n

/-- Model of `atoi` on a token. -/
def atoi (s : List Char) : Int := atoiGo 0 s

/-- Outcome of one `calc` evaluation (Proyecto1.c:239-260).  `usage` is the
message `Uso: calc n1 op n2`; `result n` is `Resultado: n`; `invalid` is
the single message `Operacion invalida` printed by the one trailing `else`
(the code prints it both for division by zero and for an unknown
operator). -/
inductive CalcOut where
  | usage
  | result (n : Int)
  | invalid
deriving DecidableEq

/-- Embedding of the calculator branch (Proyecto1.c:239-260) applied to the
text after the `calc ` keyword: tokenize it; `args[0] && args[1] && args[2]`
holds exactly when at least three tokens exist; `op` is the first
character of the second token (`args[1][0]`; reading an empty token would
see the NUL terminator, modelled by the `Char.ofNat 0` default); integer
division in C truncates toward zero (`Int.tdiv`). -/
def calcEval (rest : List Char) : CalcOut :=
  match parse rest with
  | t0 :: t1 :: t2 :: _ =>
    let a := atoi t0
    let b := atoi t2
    let op := t1.headD (Char.ofNat 0)
    if op = '+' then .result (a + b)
    else if op = '-' then .result (a - b)
    else if op = '*' then .result (a * b)
    else if op = '/' ∧ b ≠ 0 then .result (Int.tdiv a b)
    else .invalid
  | _ => .usage

/-- Embedding of the pipe detection and split in `main`
(Proyecto1.c:299-320): scan for the first `'|'`; cut the line there
(writing NUL over the `'|'` makes the left part end before it), and trim
leading spaces off the right part. -/
def pipeSplit (l : List Char) : Option (List Char × List Char) :=
  match l.findIdx? (fun c => c == '|') with
  | none => none
  | some i => some (l.take i, (l.drop (i + 1)).dropWhile isSpaceChar)

inductive Effect where
  | clearScreen
  | showHist
  | helpText
  | calcOut (o : CalcOut)
  | timeShow
  | runCmd (argv : List (List Char))
  | runPipe (leftArgs rightArgs : List (List Char))
deriving DecidableEq

/-- What one dispatched iteration of the REPL does with a line. -/
inductive StepResult where
  | exitShell (status : Nat)
  | cont (e : Effect)
deriving DecidableEq

/-- The tail of the dispatch in `main` (Proyecto1.c:299-325): pipe
detection on the (possibly alias-rewritten) line, handing the parsed
argument vectors to `run_pipe`, or the whole parsed line to `run_cmd`. -/
def shellExec (buf2 : List Char) : StepResult :=
  match pipeSplit buf2 with
  | some (l, r) => .cont (.runPipe (parse l) (parse r))
  | none => .cont (.runCmd (parse buf2))

def shellStep (buf : List Char) : StepResult :=
  if buf = "salir".toList then .exitShell 0
  else if buf = "limpiar".toList then .cont .clearScreen
  else if buf = "historial".toList then .cont .showHist
  else if buf = "ayuda".toList then .cont .helpText
  else if starts_with buf "calc ".toList then .cont (.calcOut (calcEval (buf.drop 5)))
  else if buf = "tiempo".toList then .cont .timeShow
  else
    let buf1 := if buf = "listar".toList then "ls".toList else buf
    let buf2 := if starts_with buf1 "leer ".toList then "cat ".toList ++ buf1.drop 5 else buf1
    shellExec buf2

/-- One whole iteration of the REPL body after `readline`
(Proyecto1.c:203-325): an empty line (`readline` returned 0, or
`buf[0] == 0`) is skipped before `add_history`; otherwise the line is
recorded and dispatched. -/
def shellIter (s : HistState) (line : List Char) : HistState × Option StepResult :=
  if line = [] then (s, none)
  else (add_history line s, some (shellStep line))

/-- Outcome of the child branch of `run_cmd` (Proyecto1.c:117-127). -/
inductive ChildOutcome where
  | replaced (prog : List Char) (argv : List (List Char))
  | exited (status : Nat)
deriving DecidableEq

/-- Embedding of the child of `run_cmd` (Proyecto1.c:120-123): `exec(argv[0],
argv)`; when `exec` returns (failure) the child prints an error and calls
`exit(1)`.  The OS collaborator is abstracted by `progs`, the set of
program names `exec` can load; the empty argument vector gives `exec` the
NUL sentinel instead of a program name, which never loads. -/
def run_cmd_child (argv : List (List Char)) (progs : List Char → Bool) : ChildOutcome :=
  match argv.head? with
  | some p => if progs p then .replaced p argv else .exited 1
  | none => .exited 1

/-- The parent branch of `run_cmd` (Proyecto1.c:125): `wait(0)` passes a
null status pointer, so the parent's observation of the child is the same
whatever the child's outcome was. -/
def run_cmd_parent (_o : ChildOutcome) : Unit := ()

/-- Embedding of `readline` (Proyecto1.c:73-89): read characters one at a
time while `i < max - 1`; stop at end-of-input (`read` returns less than
1) or at a newline (consumed, not stored); the fuel argument is the space
left in the buffer, and when it reaches 0 the loop stops with the rest of
the input stream unread.  Returns the stored line and the remaining
input. -/
def readlineAux : Nat → List Char → List Char × List Char
  | _, [] => ([], [])
  | 0, rest => ([], rest)
  | n + 1, c :: cs =>
    if c = '\n' then ([], cs)
    else
      let r := readlineAux n cs
      (c :: r.1, r.2)

/-- `readline(buf, MAXLINE)` as called by the REPL (Proyecto1.c:203). -/
def readline (input : List Char) : List Char × List Char :=
  readlineAux (MAXLINE - 1) input

/-- The REPL loop (Proyecto1.c:199-326) over a finite input stream,
counting `readline` calls: each iteration reads a line; an empty read
(end-of-input or a blank line) just continues; the `salir` builtin is the
only way out.  Returns (number of read attempts, whether the shell
exited) within `fuel` iterations. -/
def shellLoopReads : Nat → List Char → Nat × Bool
  | 0, _ => (0, false)
  | fuel + 1, input =>
    let r := readline input
    if r.1 = [] then
      let t := shellLoopReads fuel r.2
      (t.1 + 1, t.2)
    else
      match shellStep r.1 with
      | .exitShell _ => (1, true)
      | .cont _ =>
        let t := shellLoopReads fuel r.2
        (t.1 + 1, t.2)

/-- A file-descriptor table entry in the `run_pipe` model: the console
(descriptors 0,1,2 at entry) or an end of the pipe `p`. -/
inductive FDesc where
  | console
  | pipeR
  | pipeW
deriving DecidableEq

/-- The descriptor table each child of `run_pipe` inherits: 0,1,2 open on
the console and, from `pipe(p)` in the parent (Proyecto1.c:134), `p[0]=3`
the read end and `p[1]=4` the write end (xv6 allocates the two lowest free
descriptors in order). -/
def initFds : List (Option FDesc) := [some .console, some .console, some .console,
  some .pipeR, some .pipeW]

/-- `close(n)`: free slot `n`. -/
def closeFd (t : List (Option FDesc)) (n : Nat) : List (Option FDesc) := t.set n none

/-- `dup(n)`: copy slot `n` into the lowest free slot (xv6 `fdalloc`). -/
def dupFd (t : List (Option FDesc)) (n : Nat) : List (Option FDesc) :=
  match t.getD n none with
  | none => t
  | some d => t.set (t.findIdx fun x => x.isNone) (some d)

/-- A system call in the `run_pipe` traces. -/
inductive SysEv where
  | closeEv (fd : Nat)
  | dupEv (fd : Nat)
  | execEv (argv : List (List Char))
  | forkEv
  | waitEv
  | pipeEv
deriving DecidableEq

/-- Trace of child A of `run_pipe` (Proyecto1.c:136-143), in program
order: `close(1); dup(p[1]); close(p[0]); close(p[1]); exec(left[0], left)`
with `p[0]=3`, `p[1]=4`. -/
def run_pipe_childA (left : List (List Char)) : List SysEv :=
  [.closeEv 1, .dupEv 4, .closeEv 3, .closeEv 4, .execEv left]

/-- Trace of child B of `run_pipe` (Proyecto1.c:145-152), in program
order: `close(0); dup(p[0]); close(p[1]); close(p[0]); exec(right[0],
right)`. -/
def run_pipe_childB (right : List (List Char)) : List SysEv :=
  [.closeEv 0, .dupEv 3, .closeEv 4, .closeEv 3, .execEv right]

/-- Trace of the parent in `run_pipe` (Proyecto1.c:132-159), in program
order: `pipe(p)`, the two forks, `close(p[0]); close(p[1])`, then the two
`wait(0)` calls. -/
def run_pipe_parent : List SysEv :=
  [.pipeEv, .forkEv, .forkEv, .closeEv 3, .closeEv 4, .waitEv, .waitEv]

/-- Effect of one event on a descriptor table (only close/dup touch it). -/
def applyEv (t : List (Option FDesc)) : SysEv → List (Option FDesc)
  | .closeEv n => closeFd t n
  | .dupEv n => dupFd t n
  | _ => t

/-- Run a trace over a descriptor table. -/
def applyEvs (t : List (Option FDesc)) (evs : List SysEv) : List (Option FDesc) :=
  evs.foldl applyEv t

theorem recordList_append (L : List (List Char)) (c : List Char) (s : HistState) :
    recordList (L ++ [c]) s = add_history c (recordList L s) := by
  simp [recordList]

theorem recordList_count (L : List (List Char)) (h : ∀ c ∈ L, c ≠ []) :
    (recordList L initHist).count = L.length := by
  induction L using List.reverseRecOn with
  | nil => rfl
  | append_singleton L c ih =>
    have hc : c ≠ [] := h c (by simp)
    have hL : ∀ x ∈ L, x ≠ [] := fun x hx => h x (by simp [hx])
    rw [recordList_append, add_history, if_neg hc]
    simp [ih hL]

theorem recordList_slot (L : List (List Char)) (h : ∀ c ∈ L, c ≠ []) :
    ∀ i, i < L.length → L.length ≤ i + 10 →
      (recordList L initHist).slots ⟨i % 10, by omega⟩ = L.getD i [] := by
  induction L using List.reverseRecOn with
  | nil => intro i hi _; simp at hi
  | append_singleton L c ih =>
    intro i hi hlen
    have hc : c ≠ [] := h c (by simp)
    have hL : ∀ x ∈ L, x ≠ [] := fun x hx => h x (by simp [hx])
    have hcount := recordList_count L hL
    rw [recordList_append, add_history, if_neg hc]
    dsimp only
    simp only [List.length_append, List.length_cons, List.length_nil] at hi hlen
    by_cases hiL : i = L.length
    · have hidx : (⟨i % 10, by omega⟩ : Fin 10)
          = ⟨(recordList L initHist).count % 10, by omega⟩ := by
        simp [Fin.ext_iff, hcount, hiL]
      rw [hidx, Function.update_same, List.getD_eq_getElem?_getD, hiL,
        List.getElem?_append_right (le_refl _)]
      simp
    · have hilt : i < L.length := by omega
      have hne2 : (⟨i % 10, by omega⟩ : Fin 10)
          ≠ ⟨(recordList L initHist).count % 10, by omega⟩ := by
        simp only [ne_eq, Fin.mk.injEq, hcount]
        omega
      rw [Function.update_noteq hne2, ih hL i hilt (by omega),
        List.getD_eq_getElem?_getD, List.getD_eq_getElem?_getD,
        List.getElem?_append_left hilt]

theorem recordList_overwritten (L : List (List Char)) (h : ∀ c ∈ L, c ≠ []) :
    ∀ i, i + 11 ≤ L.length → ∃ i2, i < i2 ∧ i2 < L.length ∧ i2 % 10 = i % 10 ∧
      (recordList L initHist).slots ⟨i % 10, by omega⟩ = L.getD i2 [] := by
  intro i hi
  refine ⟨L.length - 1 - (L.length - 1 - i) % 10, by omega, by omega, by omega, ?_⟩
  have hmod : (L.length - 1 - (L.length - 1 - i) % 10) % 10 = i % 10 := by omega
  have := recordList_slot L h (L.length - 1 - (L.length - 1 - i) % 10)
    (by omega) (by omega)
  rw [← this]
  congr 1
  exact Fin.ext hmod.symm

/-- C1: `add_history` is a no-op on the empty line; on a non-empty line it
stores the line at slot `total_count % 10` and increments `total_count` by
one, leaving all other slots unchanged; consequently after recording any
sequence of non-empty lines, slot `i % 10` holds the entry with 0-based
index `i` for each of the most recent `min(total_count, 10)` insertions,
and the slot of an entry with 1-based sequence number `≤ total_count − 10`
has been overwritten by a later entry. -/
theorem claim_C1 :
    (∀ s : HistState, add_history [] s = s) ∧
    (∀ (s : HistState) (cmd : List Char), cmd ≠ [] →
      (add_history cmd s).count = s.count + 1 ∧
      (add_history cmd s).slots ⟨s.count % 10, by omega⟩ = cmd ∧
      ∀ j : Fin 10, (j : Nat) ≠ s.count % 10 → (add_history cmd s).slots j = s.slots j) ∧
    (∀ L : List (List Char), (∀ c ∈ L, c ≠ []) →
      (recordList L initHist).count = L.length ∧
      (∀ i, i < L.length → L.length ≤ i + 10 →
        (recordList L initHist).slots ⟨i % 10, by omega⟩ = L.getD i []) ∧
      (∀ i, i + 11 ≤ L.length → ∃ i2, i < i2 ∧ i2 < L.length ∧ i2 % 10 = i % 10 ∧
        (recordList L initHist).slots ⟨i % 10, by omega⟩ = L.getD i2 [])) := by
  refine ⟨fun s => by simp [add_history], fun s cmd hc => ?_, fun L hL => ?_⟩
  · rw [add_history, if_neg hc]
    refine ⟨rfl, Function.update_same _ _ _, fun j hj => ?_⟩
    exact Function.update_noteq (by simpa [Fin.ext_iff] using hj) _ _
  · exact ⟨recordList_count L hL, recordList_slot L hL, recordList_overwritten L hL⟩

/-- Witness for C1: recording the non-empty line `ls` into the empty
history increments the counter, and after recording twelve one-character
lines the counter is 12 and slot `2 % 10` holds the third line. -/
theorem claim_C1_witness :
    (add_history ['l', 's'] initHist).count = initHist.count + 1 ∧
    (recordList [['a'], ['b'], ['c'], ['d'], ['e'], ['f'], ['g'], ['h'], ['i'],
      ['j'], ['k'], ['l']] initHist).count = 12 :=
  ⟨(claim_C1.2.1 initHist ['l', 's'] (by decide)).1,
   (claim_C1.2.2 [['a'], ['b'], ['c'], ['d'], ['e'], ['f'], ['g'], ['h'], ['i'],
      ['j'], ['k'], ['l']] (by decide)).1⟩

theorem range'_map_getD (L : List (List Char)) :
    ∀ n a, a + n ≤ L.length →
      (List.range' a n).map (fun i => L.getD i []) = (L.drop a).take n := by
  intro n
  induction n with
  | zero => intro a _; simp
  | succ n ih =>
    intro a h
    have ha : a < L.length := by omega
    rw [List.range'_succ, List.map_cons, List.drop_eq_getElem_cons ha,
      List.take_succ_cons, ih (a + 1) (by omega), List.getD_eq_getElem L [] ha]

/-- C2: `show_history` lists exactly the last `min(total_count, 10)`
recorded lines in increasing sequence order, each paired with its 1-based
sequence number among all lines ever recorded; in particular after 12
non-empty commands it shows numbers 3..12 with the 3rd..12th lines. -/
theorem claim_C2 :
    (∀ L : List (List Char), (∀ c ∈ L, c ≠ []) →
      show_history (recordList L initHist)
        = (List.range' (L.length - 10) (min L.length 10)).map
            (fun i => (i + 1, L.getD i []))) ∧
    (∀ L : List (List Char), (∀ c ∈ L, c ≠ []) → L.length = 12 →
      (show_history (recordList L initHist)).map Prod.fst
        = [3, 4, 5, 6, 7, 8, 9, 10, 11, 12] ∧
      (show_history (recordList L initHist)).map Prod.snd = L.drop 2) := by
  have main : ∀ L : List (List Char), (∀ c ∈ L, c ≠ []) →
      show_history (recordList L initHist)
        = (List.range' (L.length - 10) (min L.length 10)).map
            (fun i => (i + 1, L.getD i [])) := by
    intro L hL
    have hcount := recordList_count L hL
    rw [show_history, hcount]
    rw [show L.length - (L.length - 10) = min L.length 10 by omega]
    refine List.map_congr_left fun i hi => ?_
    rw [List.mem_range'_1] at hi
    have h1 : i < L.length := by omega
    have h2 : L.length ≤ i + 10 := by omega
    rw [recordList_slot L hL i h1 h2]
  refine ⟨main, fun L hL h12 => ?_⟩
  have hm := main L hL
  rw [h12] at hm
  rw [show (12 : ℕ) - 10 = 2 from rfl, show min (12 : ℕ) 10 = 10 from by norm_num] at hm
  constructor
  · rw [hm, List.map_map]
    rfl
  · rw [hm, List.map_map]
    have hcomp : (Prod.snd ∘ fun i => (i + 1, L.getD i [])) = fun i => L.getD i [] := rfl
    rw [hcomp, range'_map_getD L 10 2 (by omega)]
    exact List.take_of_length_le (by simp [h12])

/-- Witness for C2: after recording twelve concrete one-character commands
the rendered history is numbered 3..12 and shows the last ten lines. -/
theorem claim_C2_witness :
    (show_history (recordList [['a'], ['b'], ['c'], ['d'], ['e'], ['f'], ['g'],
        ['h'], ['i'], ['j'], ['k'], ['l']] initHist)).map Prod.fst
      = [3, 4, 5, 6, 7, 8, 9, 10, 11, 12] ∧
    (show_history (recordList [['a'], ['b'], ['c'], ['d'], ['e'], ['f'], ['g'],
        ['h'], ['i'], ['j'], ['k'], ['l']] initHist)).map Prod.snd
      = [['a'], ['b'], ['c'], ['d'], ['e'], ['f'], ['g'], ['h'], ['i'],
         ['j'], ['k'], ['l']].drop 2 :=
  claim_C2.2 _ (by decide) (by decide)

theorem parseGo_nil (f : Nat) : parseGo f [] = [] := by
  cases f <;> rfl

theorem parseGo_space (f : Nat) (cs : List Char) :
    parseGo (f + 1) (' ' :: cs) = parseGo (f + 1) cs := by
  conv_lhs => rw [parseGo]
  conv_rhs => rw [parseGo]
  simp [List.dropWhile_cons, isSpaceChar]

theorem splitOn_space_eq (l : List Char) :
    l.splitOn ' ' =
      if ' ' ∈ l then
        l.takeWhile (fun x => !isSpaceChar x)
          :: ((l.dropWhile (fun x => !isSpaceChar x)).tail).splitOn ' '
      else [l] := by
  induction l with
  | nil => simp [List.splitOn]
  | cons c cs ih =>
    by_cases hc : c = ' '
    · subst hc
      simp [List.splitOn, List.splitOnP_cons, List.takeWhile_cons, List.dropWhile_cons,
        isSpaceChar]
    · have hmem : (' ' ∈ c :: cs) = (' ' ∈ cs) := by simp [List.mem_cons, Ne.symm hc, eq_comm]
      simp only [List.splitOn] at ih ⊢
      rw [List.splitOnP_cons]
      rw [if_neg (by simp [hc])]
      rw [ih]
      by_cases hmem2 : ' ' ∈ cs
      · rw [if_pos hmem2, if_pos (by simp [hmem2])]
        simp [List.takeWhile_cons, List.dropWhile_cons, isSpaceChar, hc]
      · rw [if_neg hmem2, if_neg (by simp [hmem2, Ne.symm hc])]
        rfl

theorem parseGo_eq : ∀ (n : Nat) (l : List Char), l.length ≤ n →
    ∀ f, l.length < f → parseGo f l = specTokens l := by
  intro n
  induction n with
  | zero =>
    intro l hl f _
    obtain rfl : l = [] := List.length_eq_zero.mp (Nat.le_zero.mp hl)
    rw [parseGo_nil]
    simp [specTokens, List.splitOn]
  | succ n ih =>
    intro l hl f hf
    cases l with
    | nil =>
      rw [parseGo_nil]
      simp [specTokens, List.splitOn]
    | cons c cs =>
      obtain ⟨f', rfl⟩ : ∃ g, f = g + 1 := ⟨f - 1, by omega⟩
      simp only [List.length_cons] at hl hf
      by_cases hc : c = ' '
      · subst hc
        rw [parseGo_space, ih cs (by omega) (f' + 1) (by omega)]
        simp [specTokens, List.splitOn, List.splitOnP_cons]
      · rw [parseGo]
        have hdrop : (c :: cs).dropWhile isSpaceChar = c :: cs := by
          simp [List.dropWhile_cons, isSpaceChar, hc]
        rw [hdrop]
        dsimp only
        by_cases hmem : ' ' ∈ c :: cs
        · have hddne : (c :: cs).dropWhile (fun x => !isSpaceChar x) ≠ [] := by
            rw [Ne, List.dropWhile_eq_nil_iff]
            push_neg
            exact ⟨' ', hmem, by simp [isSpaceChar]⟩
          obtain ⟨d, ds, hds⟩ := List.exists_cons_of_ne_nil hddne
          have hdspace : d = ' ' := by
            have hh := List.head_dropWhile_not (fun x => !isSpaceChar x) (c :: cs) hddne
            simp only [hds, List.head_cons] at hh
            simpa [isSpaceChar] using hh
          have hlends : ds.length ≤ cs.length := by
            have := (List.dropWhile_sublist (l := c :: cs) (fun x => !isSpaceChar x)).length_le
            rw [hds] at this
            simpa using this
          rw [hds, hdspace]
          obtain ⟨f'', rfl⟩ : ∃ g, f' = g + 1 := ⟨f' - 1, by omega⟩
          rw [parseGo_space, ih ds (by omega) (f'' + 1) (by omega)]
          conv_rhs => rw [specTokens, splitOn_space_eq]
          rw [if_pos hmem, List.filter_cons]
          have htw : (c :: cs).takeWhile (fun x => !isSpaceChar x)
              = c :: cs.takeWhile (fun x => !isSpaceChar x) := by
            simp [List.takeWhile_cons, isSpaceChar, hc]
          rw [htw]
          simp only [List.isEmpty_cons, Bool.not_false, if_true]
          rw [hds, hdspace]
          rfl
        · have hdd : (c :: cs).dropWhile (fun x => !isSpaceChar x) = [] := by
            rw [List.dropWhile_eq_nil_iff]
            intro x hx
            simp only [isSpaceChar, Bool.not_eq_true', beq_eq_false_iff_ne]
            exact fun hxx => hmem (hxx ▸ hx)
          have htw : (c :: cs).takeWhile (fun x => !isSpaceChar x) = c :: cs := by
            rw [List.takeWhile_eq_self_iff]
            intro x hx
            simp only [isSpaceChar, Bool.not_eq_true', beq_eq_false_iff_ne]
            exact fun hxx => hmem (hxx ▸ hx)
          rw [hdd, parseGo_nil, htw]
          conv_rhs => rw [specTokens, splitOn_space_eq]
          rw [if_neg hmem]
          rfl

theorem parse_eq_specTokens (l : List Char) : parse l = specTokens l :=
  parseGo_eq l.length l (le_refl _) (l.length + 1) (by omega)

theorem parse_all_space (l : List Char) (h : ∀ c ∈ l, c = ' ') : parse l = [] := by
  rw [parse, parseGo]
  rw [show l.dropWhile isSpaceChar = [] from
    List.dropWhile_eq_nil_iff.mpr fun x hx => by simp [isSpaceChar, h x hx]]

/-- C3: the tokenizer equals its specification — the maximal runs of
non-space characters in left-to-right order, runs of spaces acting as one
delimiter and producing no empty arguments; an empty or all-space line
yields the empty vector; `"a  b   c"` gives `["a","b","c"]` and `"   "`
gives `[]`. -/
theorem claim_C3 :
    (∀ l : List Char, parse l = specTokens l) ∧
    (∀ (l : List Char) (t : List Char), t ∈ parse l → t ≠ []) ∧
    (∀ l : List Char, (∀ c ∈ l, c = ' ') → parse l = []) ∧
    parse "a  b   c".toList = [['a'], ['b'], ['c']] ∧
    parse "   ".toList = [] ∧
    parse [] = [] := by
  refine ⟨parse_eq_specTokens, ?_, parse_all_space, by decide, by decide, by decide⟩
  intro l t ht
  rw [parse_eq_specTokens] at ht
  have := List.of_mem_filter ht
  simpa using this

/-- Witness for C3: the all-space clause applied at the concrete line of
three spaces, and the membership clause at the first token of `"a b"`. -/
theorem claim_C3_witness :
    parse "   ".toList = [] ∧ (['a'] : List Char) ≠ [] :=
  ⟨claim_C3.2.2.1 "   ".toList (by decide),
   claim_C3.2.1 "a b".toList ['a'] (by decide)⟩


theorem starts_with_calc_shape (buf : List Char)
    (h : starts_with buf "calc ".toList = true) :
    ∃ rest, buf = 'c' :: 'a' :: 'l' :: 'c' :: ' ' :: rest := by
  rcases buf with _ | ⟨c0, _ | ⟨c1, _ | ⟨c2, _ | ⟨c3, _ | ⟨c4, rest⟩⟩⟩⟩⟩ <;>
    simp [starts_with, show "calc ".toList = ['c', 'a', 'l', 'c', ' '] from rfl] at h
  obtain ⟨h0, h1, h2, h3, h4⟩ := h
  subst h0; subst h1; subst h2; subst h3; subst h4
  exact ⟨rest, rfl⟩

theorem calcEval_usage_short : ∀ (rest : List Char), (parse rest).length < 3 → calcEval rest = .usage := by
  intro rest h
  rcases hp : parse rest with _ | ⟨t0, _ | ⟨t1, _ | ⟨t2, tr⟩⟩⟩
  · simp [calcEval, hp]
  · simp [calcEval, hp]
  · simp [calcEval, hp]
  · rw [hp] at h; simp at h; omega

theorem calcEval_op_cases : ∀ (rest t0 t1 t2 : List Char) (tr : List (List Char)),
    parse rest = t0 :: t1 :: t2 :: tr →
    (t1.headD (Char.ofNat 0) = '+' → calcEval rest = .result (atoi t0 + atoi t2)) ∧
    (t1.headD (Char.ofNat 0) = '-' → calcEval rest = .result (atoi t0 - atoi t2)) ∧
    (t1.headD (Char.ofNat 0) = '*' → calcEval rest = .result (atoi t0 * atoi t2)) ∧
    (t1.headD (Char.ofNat 0) = '/' → atoi t2 ≠ 0 →
      calcEval rest = .result (Int.tdiv (atoi t0) (atoi t2))) ∧
    (t1.headD (Char.ofNat 0) = '/' → atoi t2 = 0 → calcEval rest = .invalid) ∧
    (t1.headD (Char.ofNat 0) ∉ (['+', '-', '*', '/'] : List Char) →
      calcEval rest = .invalid) := by
  intro rest t0 t1 t2 tr hp
  refine ⟨fun hop => ?_, fun hop => ?_, fun hop => ?_, fun hop hb => ?_,
    fun hop hb => ?_, fun hop => ?_⟩ <;>
    simp only [List.headD_eq_head?_getD] at hop
  · simp [calcEval, hp, hop]
  · simp [calcEval, hp, hop]
  · simp [calcEval, hp, hop]
  · simp [calcEval, hp, hop, hb]
  · simp [calcEval, hp, hop, hb]
  · simp only [List.mem_cons, List.mem_singleton, not_or] at hop
    obtain ⟨h1, h2, h3, h4⟩ := hop
    simp [calcEval, hp, h1, h2, h3, h4]

theorem shellStep_calc_dispatch : ∀ buf : List Char, starts_with buf "calc ".toList = true →
    shellStep buf = .cont (.calcOut (calcEval (buf.drop 5))) := by
  intro buf h
  obtain ⟨rest, rfl⟩ := starts_with_calc_shape buf h
  rw [shellStep]
  rw [if_neg (by rintro ⟨⟩), if_neg (by rintro ⟨⟩), if_neg (by rintro ⟨⟩),
    if_neg (by rintro ⟨⟩), if_pos h]

/-- C4: the calculator — amended.  The text after `calc ` is tokenized;
fewer than three tokens report the usage error; otherwise the operands are
parsed with permissive integer parsing and the operator applied: `+`, `-`,
`*` print the integer result (`calc 4 + 5` gives 9), `/` prints the
truncated quotient only when operand2 is nonzero; division by zero and any
unknown operator land in the same final `else` and report the SAME
`Operacion invalida` message (the code has no arithmetic error distinct
from the invalid-operation error); the dispatch continues the loop in all
cases (`.cont`). -/
theorem claim_C4 :
    (∀ rest : List Char, (parse rest).length < 3 → calcEval rest = .usage) ∧
    (∀ (rest t0 t1 t2 : List Char) (tr : List (List Char)),
      parse rest = t0 :: t1 :: t2 :: tr →
      (t1.headD (Char.ofNat 0) = '+' → calcEval rest = .result (atoi t0 + atoi t2)) ∧
      (t1.headD (Char.ofNat 0) = '-' → calcEval rest = .result (atoi t0 - atoi t2)) ∧
      (t1.headD (Char.ofNat 0) = '*' → calcEval rest = .result (atoi t0 * atoi t2)) ∧
      (t1.headD (Char.ofNat 0) = '/' → atoi t2 ≠ 0 →
        calcEval rest = .result (Int.tdiv (atoi t0) (atoi t2))) ∧
      (t1.headD (Char.ofNat 0) = '/' → atoi t2 = 0 → calcEval rest = .invalid) ∧
      (t1.headD (Char.ofNat 0) ∉ (['+', '-', '*', '/'] : List Char) →
        calcEval rest = .invalid)) ∧
    calcEval "4 + 5".toList = .result 9 ∧
    calcEval "10 / 2".toList = .result 5 ∧
    calcEval "4 / 0".toList = .invalid ∧
    calcEval "4 % 5".toList = .invalid ∧
    (∀ buf : List Char, starts_with buf "calc ".toList = true →
      shellStep buf = .cont (.calcOut (calcEval (buf.drop 5)))) :=
  ⟨calcEval_usage_short, calcEval_op_cases, by decide, by decide, by decide, by decide,
   shellStep_calc_dispatch⟩

/-- C4 counterexample: the claim's distinct arithmetic error does not
exist — `calc 4 / 0` and `calc 4 % 5` produce the identical `invalid`
outcome (the single `Operacion invalida` message of the final `else`
branch), so the division-by-zero report is not distinct from the
invalid-operation report. -/
theorem claim_C4_counterexample :
    calcEval "4 / 0".toList = CalcOut.invalid ∧
    calcEval "4 % 5".toList = CalcOut.invalid ∧
    calcEval "4 / 0".toList = calcEval "4 % 5".toList := by decide

/-- Witness for C4: the usage clause fired on the two-token line `4 +`, and
the dispatch clause fired on the line `calc 4 + 5`. -/
theorem claim_C4_witness :
    calcEval "4 +".toList = .usage ∧
    shellStep "calc 4 + 5".toList
      = .cont (.calcOut (calcEval ("calc 4 + 5".toList.drop 5))) :=
  ⟨claim_C4.1 "4 +".toList (by decide),
   claim_C4.2.2.2.2.2.2 "calc 4 + 5".toList (by decide)⟩

theorem pipeSplit_eq_of_mem : ∀ l : List Char, '|' ∈ l →
    pipeSplit l = some (l.takeWhile (fun c => !(c == '|')),
      ((l.dropWhile (fun c => !(c == '|'))).tail).dropWhile isSpaceChar) := by
  intro l hl
  induction l with
  | nil => cases hl
  | cons c cs ih =>
    by_cases hc : c = '|'
    · subst hc
      simp [pipeSplit, List.findIdx?_cons, List.takeWhile_cons, List.dropWhile_cons]
    · have hmem : '|' ∈ cs := by
        rcases List.mem_cons.mp hl with h | h
        · exact absurd h.symm hc
        · exact h
      have hcf : (c == '|') = false := by simp [hc]
      obtain ⟨i, hi⟩ : ∃ i, List.findIdx? (fun x => x == '|') cs = some i := by
        rcases h : List.findIdx? (fun x => x == '|') cs with _ | i
        · rw [List.findIdx?_eq_none_iff] at h
          have := h '|' hmem
          simp at this
        · exact ⟨i, rfl⟩
      have hsplit := ih hmem
      rw [pipeSplit, hi] at hsplit
      simp only [Option.some.injEq, Prod.mk.injEq] at hsplit
      obtain ⟨h1, h2⟩ := hsplit
      rw [pipeSplit, List.findIdx?_cons, hcf]
      simp only [Bool.false_eq_true, if_false, List.findIdx?_succ, hi, Option.map_some']
      simp [List.take_succ_cons, List.drop_succ_cons, List.takeWhile_cons,
        List.dropWhile_cons, hcf, h1, h2]

theorem pipeSplit_none (l : List Char) (h : '|' ∉ l) : pipeSplit l = none := by
  rw [pipeSplit, List.findIdx?_eq_none_iff.mpr]
  intro x hx
  simp only [beq_eq_false_iff_ne]
  exact fun hxx => h (hxx ▸ hx)

theorem pipeSplit_left_no_pipe : ∀ (l left right : List Char),
    pipeSplit l = some (left, right) → '|' ∉ left := by
  intro l left right h
  by_cases hl : '|' ∈ l
  · rw [pipeSplit_eq_of_mem l hl] at h
    simp only [Option.some.injEq, Prod.mk.injEq] at h
    obtain ⟨h1, _⟩ := h
    subst h1
    intro hmem
    have := List.mem_takeWhile_imp hmem
    simp at this
  · rw [pipeSplit_none l hl] at h
    cases h

/-- C5: the first `'|'` of the line is the split point — the left command
is the text before it (which therefore contains no `'|'`: a later pipe
character is not a split point), the right command is the text after it
with leading spaces trimmed; a line without `'|'` does not split; the two
parsed argument vectors are handed to the pipe launcher, and in
`a | b | c` the second pipe survives as an ordinary token of the right
command. -/
theorem claim_C5 :
    (∀ l : List Char, '|' ∈ l →
      pipeSplit l = some (l.takeWhile (fun c => !(c == '|')),
        ((l.dropWhile (fun c => !(c == '|'))).tail).dropWhile isSpaceChar)) ∧
    (∀ l left right : List Char, pipeSplit l = some (left, right) → '|' ∉ left) ∧
    (∀ l : List Char, '|' ∉ l → pipeSplit l = none) ∧
    shellStep "ls | wc -l".toList
      = .cont (.runPipe [['l', 's']] [['w', 'c'], ['-', 'l']]) ∧
    shellStep "a | b | c".toList
      = .cont (.runPipe [['a']] [['b'], ['|'], ['c']]) :=
  ⟨pipeSplit_eq_of_mem, pipeSplit_left_no_pipe, pipeSplit_none, by decide, by decide⟩

/-- Witness for C5: the split equation applied to the concrete line
`ls | wc`. -/
theorem claim_C5_witness :
    pipeSplit "ls | wc".toList
      = some ("ls | wc".toList.takeWhile (fun c => !(c == '|')),
          (("ls | wc".toList.dropWhile (fun c => !(c == '|'))).tail).dropWhile
            isSpaceChar) :=
  claim_C5.1 "ls | wc".toList (by decide)

/-- C6: the descriptor protocol of `run_pipe` — child A ends up with its
standard output (descriptor 1) open on the pipe's write end and both raw
pipe descriptors (3 and 4) closed, its trace closing both before the final
`exec left`; child B symmetrically has standard input (descriptor 0) open
on the pipe's read end, both raw descriptors closed, before `exec right`;
the parent's trace closes both pipe ends after the two forks and before
either of its two `wait` calls. -/
theorem claim_C6 : ∀ left right : List (List Char),
    applyEvs initFds (run_pipe_childA left)
      = [some .console, some .pipeW, some .console, none, none] ∧
    run_pipe_childA left
      = [.closeEv 1, .dupEv 4] ++ [.closeEv 3, .closeEv 4] ++ [.execEv left] ∧
    applyEvs initFds (run_pipe_childB right)
      = [some .pipeR, some .console, some .console, none, none] ∧
    run_pipe_childB right
      = [.closeEv 0, .dupEv 3] ++ [.closeEv 4, .closeEv 3] ++ [.execEv right] ∧
    run_pipe_parent = [.pipeEv] ++ [.forkEv, .forkEv]
      ++ [.closeEv 3, .closeEv 4] ++ [.waitEv, .waitEv] :=
  fun _ _ => ⟨rfl, rfl, rfl, rfl, rfl⟩

theorem shellExec_ne_exit (b : List Char) (st : Nat) : shellExec b ≠ .exitShell st := by
  rw [shellExec]
  rcases h : pipeSplit b with _ | ⟨l, r⟩ <;> simp

theorem shellStep_exit_only_salir : ∀ (buf : List Char) (st : Nat),
    shellStep buf = .exitShell st → buf = "salir".toList ∧ st = 0 := by
  intro buf st h
  rw [shellStep] at h
  by_cases h1 : buf = "salir".toList
  · rw [if_pos h1] at h
    injection h with hst
    exact ⟨h1, hst.symm⟩
  · rw [if_neg h1] at h
    exfalso
    split_ifs at h <;> first
      | exact StepResult.noConfusion h
      | exact shellExec_ne_exit _ st h

/-- C7: exit discipline — `shellStep` produces `exitShell st` only for the
exact line `salir` and then `st = 0` (every other dispatch continues the
loop), and a `run_cmd` child whose image replacement fails exits with
status 1, while the parent's `wait(0)` observation is the same whatever
the child's outcome (the status is never inspected). -/
theorem claim_C7 :
    (∀ (buf : List Char) (st : Nat),
      shellStep buf = .exitShell st → buf = "salir".toList ∧ st = 0) ∧
    shellStep "salir".toList = .exitShell 0 ∧
    (∀ (argv : List (List Char)) (progs : List Char → Bool),
      (∀ p as, run_cmd_child argv progs ≠ .replaced p as) →
      run_cmd_child argv progs = .exited 1) ∧
    (∀ o o2 : ChildOutcome, run_cmd_parent o = run_cmd_parent o2) := by
  refine ⟨shellStep_exit_only_salir, by decide, ?_, fun o o2 => rfl⟩
  intro argv progs h
  rcases ha : argv.head? with _ | p
  · rw [run_cmd_child, ha]
  · by_cases hp : progs p
    · exact absurd (by simp [run_cmd_child, ha, hp]) (h p argv)
    · simp [run_cmd_child, ha, hp]

/-- Witness for C7: the only-exit clause applied at the line `salir` itself,
and the child-failure clause at a one-command vector no program matches. -/
theorem claim_C7_witness :
    ("salir".toList = "salir".toList ∧ (0 : Nat) = 0) ∧
    run_cmd_child [['x']] (fun _ => false) = .exited 1 :=
  ⟨claim_C7.1 "salir".toList 0 (by decide),
   claim_C7.2.2.1 [['x']] (fun _ => false)
     (fun p as => by simp [run_cmd_child])⟩

theorem shellLoopReads_empty : ∀ fuel : Nat, shellLoopReads fuel [] = (fuel, false) := by
  intro fuel
  induction fuel with
  | zero => rfl
  | succ fuel ih =>
    rw [shellLoopReads]
    simp only [show readline [] = ([], []) from rfl]
    simp [ih]

/-- C8 — amended: on an exhausted input stream the shell does not crash;
`readline` immediately returns the empty line and the loop just continues
to the next prompt, so within any number `fuel` of iterations it performs
exactly `fuel` read attempts and never terminates (the loop is only left
through the `salir` builtin). -/
theorem claim_C8 :
    readline [] = ([], []) ∧
    (∀ fuel : Nat, shellLoopReads fuel [] = (fuel, false)) :=
  ⟨rfl, shellLoopReads_empty⟩

/-- C8 counterexample: with the input stream empty from the start, three
iterations of the loop make three read attempts and the shell has not
terminated — refuting that it performs no further read attempts and
terminates once input is exhausted. -/
theorem claim_C8_counterexample :
    (shellLoopReads 3 []).1 = 3 ∧ (shellLoopReads 3 []).2 = false ∧
    ¬((shellLoopReads 3 []).1 ≤ 1 ∧ (shellLoopReads 3 []).2 = true) := by decide

theorem readlineAux_spec : ∀ (n : Nat) (input : List Char),
    (readlineAux n input).1.length ≤ n ∧
    '\n' ∉ (readlineAux n input).1 ∧
    (input = (readlineAux n input).1 ++ (readlineAux n input).2 ∨
     input = (readlineAux n input).1 ++ '\n' :: (readlineAux n input).2) := by
  intro n input
  induction input generalizing n with
  | nil => simp [readlineAux]
  | cons c cs ih =>
    cases n with
    | zero => simp [readlineAux]
    | succ n =>
      by_cases hc : c = '\n'
      · subst hc
        simp [readlineAux]
      · obtain ⟨ih1, ih2, ih3⟩ := ih n
        rw [readlineAux, if_neg hc]
        refine ⟨by simpa using Nat.succ_le_succ ih1, ?_, ?_⟩
        · simp only [List.mem_cons, not_or]
          exact ⟨fun hcc => hc hcc.symm, ih2⟩
        · rcases ih3 with h | h
          · exact Or.inl (by rw [List.cons_append, ← h])
          · exact Or.inr (by rw [List.cons_append, ← h])

theorem readlineAux_trunc : ∀ (n : Nat) (input : List Char),
    '\n' ∉ input.take n → readlineAux n input = (input.take n, input.drop n) := by
  intro n input
  induction input generalizing n with
  | nil => simp [readlineAux]
  | cons c cs ih =>
    cases n with
    | zero => simp [readlineAux]
    | succ n =>
      intro h
      simp only [List.take_succ_cons, List.mem_cons, not_or] at h
      obtain ⟨h1, h2⟩ := h
      rw [readlineAux, if_neg (fun hcc => h1 hcc.symm), ih n h2]
      simp

/-- C9 — amended: a read line stops at a newline, at end-of-input, or at
the fixed maximum of `MAXLINE - 1` = 99 stored characters, never contains
a newline, and is a prefix of the input (with the delimiting newline
consumed when one was read); a line longer than the maximum is truncated
to 99 characters, and the excess characters are NOT discarded: they remain
in the input stream (`drop 99`) to be read by the next call. -/
theorem claim_C9 :
    (∀ input : List Char,
      (readline input).1.length ≤ MAXLINE - 1 ∧
      '\n' ∉ (readline input).1 ∧
      (input = (readline input).1 ++ (readline input).2 ∨
       input = (readline input).1 ++ '\n' :: (readline input).2)) ∧
    (∀ input : List Char, '\n' ∉ input.take (MAXLINE - 1) →
      readline input = (input.take (MAXLINE - 1), input.drop (MAXLINE - 1))) := by
  constructor
  · intro input
    exact readlineAux_spec 99 input
  · intro input h
    exact readlineAux_trunc 99 input h

/-- Witness for C9: the truncation clause applied to a concrete 105
character line with no newline in its first 99 characters. -/
theorem claim_C9_witness :
    readline (List.replicate 105 'a')
      = ((List.replicate 105 'a').take (MAXLINE - 1),
         (List.replicate 105 'a').drop (MAXLINE - 1)) :=
  claim_C9.2 (List.replicate 105 'a') (by decide)

/-- C9 counterexample: a 105-character line followed by a newline is
truncated to 99 characters, but the 6 excess characters are not
discarded — the next `readline` returns them as a non-empty line, so they
are processed later, refuting the claim's discard clause. -/
theorem claim_C9_counterexample :
    (readline (List.replicate 105 'a' ++ ['\n'])).1 = List.replicate 99 'a' ∧
    (readline ((readline (List.replicate 105 'a' ++ ['\n'])).2)).1 = List.replicate 6 'a' ∧
    List.replicate 6 'a' ≠ ([] : List Char) := by decide

theorem shellIter_all_space : ∀ (s : HistState) (line : List Char), line ≠ [] →
    (∀ c ∈ line, c = ' ') →
    shellIter s line = (add_history line s, some (.cont (.runCmd []))) ∧
    (add_history line s).count = s.count + 1 := by
  intro s line hne hsp
  obtain ⟨c, cs, rfl⟩ := List.exists_cons_of_ne_nil hne
  have hc : c = ' ' := hsp c (by simp)
  subst hc
  have hcs : ∀ x ∈ cs, x = ' ' := fun x hx => hsp x (by simp [hx])
  have hsw : ∀ d : Char, d ≠ ' ' → ∀ ds : List Char,
      starts_with (' ' :: cs) (d :: ds) = false := by
    intro d hd ds
    rw [starts_with, if_neg (fun h => hd h.symm)]
  have hne1 : ∀ (d : Char) (ds : List Char), d ≠ ' ' → ¬(' ' :: cs = d :: ds) := by
    intro d ds hd h
    injection h with h1 _
    exact hd h1.symm
  have hstep : shellStep (' ' :: cs) = .cont (.runCmd []) := by
    rw [shellStep,
      show "salir".toList = ['s', 'a', 'l', 'i', 'r'] from rfl,
      show "limpiar".toList = ['l', 'i', 'm', 'p', 'i', 'a', 'r'] from rfl,
      show "historial".toList = ['h', 'i', 's', 't', 'o', 'r', 'i', 'a', 'l'] from rfl,
      show "ayuda".toList = ['a', 'y', 'u', 'd', 'a'] from rfl,
      show "calc ".toList = ['c', 'a', 'l', 'c', ' '] from rfl,
      show "tiempo".toList = ['t', 'i', 'e', 'm', 'p', 'o'] from rfl,
      show "listar".toList = ['l', 'i', 's', 't', 'a', 'r'] from rfl,
      show "leer ".toList = ['l', 'e', 'e', 'r', ' '] from rfl]
    rw [if_neg (hne1 's' _ (by decide)), if_neg (hne1 'l' _ (by decide)),
      if_neg (hne1 'h' _ (by decide)), if_neg (hne1 'a' _ (by decide)),
      hsw 'c' (by decide), if_neg (hne1 't' _ (by decide)),
      if_neg (hne1 'l' _ (by decide))]
    simp only [Bool.false_eq_true, if_false]
    rw [hsw 'l' (by decide)]
    simp only [Bool.false_eq_true, if_false]
    show shellExec (' ' :: cs) = .cont (.runCmd [])
    rw [shellExec]
    rw [pipeSplit_none _ (fun hmem => absurd (hsp '|' hmem) (by decide))]
    dsimp only
    rw [parse_all_space _ hsp]
  refine ⟨?_, ?_⟩
  · rw [shellIter, if_neg (by simp), hstep]
  · rw [add_history, if_neg (by simp)]

/-- C10: a non-empty all-space line is treated as a command — it is
recorded in history (the counter increments), matches no builtin and no
pipe, and reaches the single-process launcher with the empty argument
vector (the sentinel is element 0); a `run_cmd` child spawned with the
empty vector has no program name for `exec`, so its image replacement
fails and it exits with status 1, while the shell loop itself continues
(`.cont`). -/
theorem claim_C10 :
    ∀ (s : HistState) (line : List Char), line ≠ [] → (∀ c ∈ line, c = ' ') →
      shellIter s line = (add_history line s, some (.cont (.runCmd []))) ∧
      (add_history line s).count = s.count + 1 ∧
      parse line = [] ∧
      (∀ progs : List Char → Bool, run_cmd_child [] progs = .exited 1) := by
  intro s line hne hsp
  obtain ⟨h1, h2⟩ := shellIter_all_space s line hne hsp
  exact ⟨h1, h2, parse_all_space line hsp, fun progs => rfl⟩

/-- Witness for C10: the line of three spaces, from the initial history
state. -/
theorem claim_C10_witness :
    shellIter initHist "   ".toList
      = (add_history "   ".toList initHist, some (.cont (.runCmd []))) ∧
    (add_history "   ".toList initHist).count = initHist.count + 1 :=
  ⟨(claim_C10 initHist "   ".toList (by decide) (by decide)).1,
   (claim_C10 initHist "   ".toList (by decide) (by decide)).2.1⟩
